import Mathlib

/-!
Shallow embedding of the study-group matching engine
(`src/backend/matching.py` together with the data model of
`src/backend/models.py` and the persistence calls of `src/backend/db.py`),
and proofs of the specification claims about it.

Python integers are modelled as `Int` (or `Nat` for database ids),
Python sets of timeslot ids as `Finset Nat`, Python float averages as `ℚ`
(the quantities involved are small exact rationals, so `/` on ℚ models
Python's true division faithfully at every comparison the code makes),
and Python dicts as explicit association structures described at each
definition.
-/

/-- `Student` dataclass from `src/backend/models.py`. -/
structure Student where
  id : Nat
  name : String
  email : String
  preferred_group_size : Int
  course_ids : List Nat
  availability_timeslot_ids : Finset Nat
deriving DecidableEq

instance : Inhabited Student := ⟨⟨0, "", "", 0, [], ∅⟩⟩

/-- `compatibility(a, b)` from `src/backend/matching.py` lines 62–75:
base 5, plus the size of the availability intersection, minus a penalty of
`size_diff - 1` when the preferred-size difference is at least 2, clamped
below at 0. -/
def compatibility (a b : Student) : Int :=
  let base_score : Int := 5
  let overlap : Int := ((a.availability_timeslot_ids ∩ b.availability_timeslot_ids).card : Int)
  let size_diff : Int := |a.preferred_group_size - b.preferred_group_size|
  let penalty : Int := if size_diff ≥ 2 then size_diff - 1 else 0
  max 0 (base_score + overlap - penalty)

/-- Python-dict model used for the compatibility matrix: a total function
to `Option Int`, updated pointwise (later writes win, as in a dict). -/
def dictInsert (m : Nat × Nat → Option Int) (k : Nat × Nat) (v : Int) :
    Nat × Nat → Option Int :=
  fun q => if q = k then some v else m q

/-- `scores.get(key, 0)` on the dict model. -/
def dictGetD (m : Nat × Nat → Option Int) (k : Nat × Nat) : Int :=
  (m k).getD 0

/-- Inner loop of `build_compatibility_matrix`: for a fixed `s1`, write
`scores[(s1.id, s2.id)] = score` then `scores[(s2.id, s1.id)] = score`
for every later student `s2`. -/
def insert_pairs (s1 : Student) : List Student → (Nat × Nat → Option Int) →
    (Nat × Nat → Option Int)
  | [], m => m
  | s2 :: rest, m =>
      insert_pairs s1 rest
        (dictInsert (dictInsert m (s1.id, s2.id) (compatibility s1 s2))
          (s2.id, s1.id) (compatibility s1 s2))

/-- Outer loop of `build_compatibility_matrix` (`matching.py` lines 78–86):
iterate over positions `i`, pairing `students[i]` with every `students[j]`,
`j > i`. -/
def build_matrix_from : List Student → (Nat × Nat → Option Int) →
    (Nat × Nat → Option Int)
  | [], m => m
  | s1 :: rest, m => build_matrix_from rest (insert_pairs s1 rest m)

/-- `build_compatibility_matrix(students)` starting from the empty dict. -/
def build_compatibility_matrix (students : List Student) : Nat × Nat → Option Int :=
  build_matrix_from students (fun _ => none)

theorem compatibility_nonneg (a b : Student) : 0 ≤ compatibility a b := by
  simp [compatibility]

theorem compatibility_comm (a b : Student) : compatibility a b = compatibility b a := by
  simp [compatibility, Finset.inter_comm, abs_sub_comm]

/-- A dict is symmetric when the value under `(x, y)` always equals the
value under `(y, x)`. -/
def SymmDict (m : Nat × Nat → Option Int) : Prop :=
  ∀ x y : Nat, m (x, y) = m (y, x)

theorem symmDict_insert_pair (m : Nat × Nat → Option Int) (a b : Nat) (v : Int)
    (h : SymmDict m) :
    SymmDict (dictInsert (dictInsert m (a, b) v) (b, a) v) := by
  intro x y
  simp only [dictInsert, Prod.mk.injEq]
  split_ifs <;> first | rfl | exact h x y | tauto

theorem symmDict_insert_pairs (s1 : Student) (rest : List Student)
    (m : Nat × Nat → Option Int) (h : SymmDict m) :
    SymmDict (insert_pairs s1 rest m) := by
  induction rest generalizing m with
  | nil => exact h
  | cons s2 tl ih =>
      exact ih _ (symmDict_insert_pair _ _ _ _ h)

theorem symmDict_build_from (students : List Student)
    (m : Nat × Nat → Option Int) (h : SymmDict m) :
    SymmDict (build_matrix_from students m) := by
  induction students generalizing m with
  | nil => exact h
  | cons s1 rest ih =>
      exact ih _ (symmDict_insert_pairs _ _ _ h)

theorem build_compatibility_matrix_symm (students : List Student) :
    SymmDict (build_compatibility_matrix students) :=
  symmDict_build_from students _ (fun _ _ => rfl)

/-- `max(2, min(5, x))`, the clamp into [2,5] used twice in
`form_groups_for_course`. -/
def clamp25 (x : Int) : Int := max 2 (min 5 x)

/-- `statistics.median` on a list of rationals: sort ascending; an odd
length takes the middle element, an even length averages the two middle
elements. Returns `none` on the empty list (where Python raises
`StatisticsError`). -/
def pymedian (xs : List ℚ) : Option ℚ :=
  let s := xs.insertionSort (· ≤ ·)
  let n := xs.length
  if n = 0 then none
  else if n % 2 = 1 then some (s.getD (n / 2) 0)
  else some ((s.getD (n / 2 - 1) 0 + s.getD (n / 2) 0) / 2)

/-- Target-size determination of `form_groups_for_course`
(`matching.py` lines 96–102): clamp each preference into [2,5], take
`int(median(prefs))` (the median of clamped values is positive, so `int`
truncation is the floor), default 3 when the median computation fails,
clamp the result into [2,5]. -/
def target_size (students : List Student) : Int :=
  clamp25
    (match pymedian (((students.map (fun s => clamp25 s.preferred_group_size)).map
        (fun p : Int => (p : ℚ)))) with
     | some m => ⌊m⌋
     | none => 3)

/-- The set `unassigned = {s.id for s in students}` together with its
iteration order. CPython iterates this set of ints in hash-slot order,
which for small distinct non-negative ids is ascending id order (it is
not the roster order); the model fixes that enumeration: duplicates
collapse and the ids are listed in ascending order. -/
def idSet (students : List Student) : List Nat :=
  ((students.map Student.id).dedup).insertionSort (· ≤ ·)

/-- Inner sum of the seed-selection loop (`matching.py` lines 123–127):
sum of `scores.get((sid, other), 0)` over `other` in `unassigned`,
skipping `other == sid`. -/
def seed_total (scores : Nat × Nat → Option Int) (sid : Nat)
    (unassigned : List Nat) : Int :=
  unassigned.foldl
    (fun t other => if other = sid then t else t + dictGetD scores (sid, other)) 0

/-- The `best = None; best_val = v0; for x in xs: if f(x) > best_val:
update` loop shape shared by seed selection and greedy growth. -/
def best_by {α : Type} [LinearOrder α] (f : Nat → α) :
    List Nat → Option Nat → α → Option Nat
  | [], b, _ => b
  | x :: rest, b, bv =>
      if f x > bv then best_by f rest (some x) (f x)
      else best_by f rest b bv

/-- Seed selection (`matching.py` lines 120–130): start from
`best_seed_id = None`, `best_seed_total = -1`, take each strictly better
total. -/
def pick_seed (scores : Nat × Nat → Option Int) (unassigned : List Nat) :
    Option Nat :=
  best_by (fun sid => seed_total scores sid unassigned) unassigned none (-1)

/-- `avg_compat(candidate_id, current_ids)` (`matching.py` lines 110–116);
Python float arithmetic modelled exactly on ℚ. -/
def avg_compat (scores : Nat × Nat → Option Int) (candidate_id : Nat)
    (current_ids : List Nat) : ℚ :=
  if current_ids = [] then 0
  else ((current_ids.foldl
          (fun t cid => t + dictGetD scores (candidate_id, cid)) 0 : Int) : ℚ)
        / (current_ids.length : ℚ)

/-- Candidate selection of the greedy-growth loop
(`matching.py` lines 140–146): start from `best_candidate = None`,
`best_score = -1.0`, take each strictly better average. -/
def pick_candidate (scores : Nat × Nat → Option Int)
    (unassigned current : List Nat) : Option Nat :=
  best_by (fun sid => avg_compat scores sid current) unassigned none (-1)

/-- Greedy-growth loop (`matching.py` lines 139–153): while the group is
smaller than `target` and `unassigned` is non-empty, add the unassigned
student with the best average compatibility (the `best_candidate is None`
fallback takes the first unassigned id). Returns the grown group and the
remaining unassigned ids. -/
def grow_group (scores : Nat × Nat → Option Int) (target : Nat)
    (current : List Nat) (unassigned : List Nat) : List Nat × List Nat :=
  if h : current.length < target ∧ unassigned ≠ [] then
    grow_group scores target
      (current ++ [(pick_candidate scores unassigned current).getD (unassigned.headD 0)])
      (unassigned.erase ((pick_candidate scores unassigned current).getD (unassigned.headD 0)))
  else (current, unassigned)
termination_by target - current.length
decreasing_by
  simp only [List.length_append, List.length_cons, List.length_nil]
  omega

theorem best_by_mem {α : Type} [LinearOrder α] (f : Nat → α) (xs : List Nat)
    (b : Option Nat) (bv : α) (c : Nat) (h : best_by f xs b bv = some c) :
    b = some c ∨ c ∈ xs := by
  induction xs generalizing b bv with
  | nil => exact Or.inl h
  | cons x rest ih =>
      simp only [best_by] at h
      split at h
      · rcases ih _ _ h with h1 | h1
        · obtain rfl := Option.some.inj h1
          exact Or.inr (List.mem_cons_self _ _)
        · exact Or.inr (List.mem_cons_of_mem _ h1)
      · rcases ih _ _ h with h1 | h1
        · exact Or.inl h1
        · exact Or.inr (List.mem_cons_of_mem _ h1)

theorem grow_group_sublist (scores : Nat × Nat → Option Int) (target : Nat)
    (current unassigned : List Nat) :
    (grow_group scores target current unassigned).2.Sublist unassigned := by
  induction current, unassigned using grow_group.induct scores target with
  | case1 current unassigned h ih =>
      rw [grow_group, dif_pos h]
      exact ih.trans (List.erase_sublist _ _)
  | case2 current unassigned h =>
      rw [grow_group, dif_neg h]

/-- Main loop of `form_groups_for_course` (`matching.py` lines 118–155),
expressed over ids: pick a seed, remove it, grow the group greedily,
append, repeat while unassigned ids remain. A failed seed pick models the
`break` (dead for the matrices the caller builds, whose totals are all
≥ 0 > -1). -/
def main_loop (scores : Nat × Nat → Option Int) (target : Nat)
    (unassigned : List Nat) : List (List Nat) :=
  if h : unassigned = [] then []
  else
    match hp : pick_seed scores unassigned with
    | none => []
    | some seed =>
        (grow_group scores target [seed] (unassigned.erase seed)).1 ::
          main_loop scores target (grow_group scores target [seed] (unassigned.erase seed)).2
termination_by unassigned.length
decreasing_by
  have hs : seed ∈ unassigned := by
    rcases best_by_mem _ _ _ _ _ hp with h1 | h1
    · exact absurd h1 (by simp)
    · exact h1
  have h1 : (grow_group scores target [seed] (unassigned.erase seed)).2.length ≤
      (unassigned.erase seed).length :=
    (grow_group_sublist scores target [seed] (unassigned.erase seed)).length_le
  have h2 := List.length_pos_of_mem hs
  rw [List.length_erase_of_mem hs] at h1
  show (grow_group scores target [seed] (unassigned.erase seed)).2.length <
      unassigned.length
  omega

/-- `by_id = {s.id: s for s in students}` (`matching.py` line 107) as a
lookup: a later student with the same id overwrites an earlier one;
lookup of a missing id gives the default student (dead in context). -/
def by_id (students : List Student) (sid : Nat) : Student :=
  (students.foldl (fun acc s => if s.id = sid then some s else acc)
    (none : Option Student)).getD default

/-- The groups accumulated by the main loop, as students
(`groups.append([by_id[sid] for sid in current_group_ids])`). -/
def pre_merge_groups (students : List Student) : List (List Student) :=
  (main_loop (build_compatibility_matrix students)
      (target_size students).toNat (idSet students)).map
    (fun g => g.map (by_id students))

/-- Average compatibility of the leftover student with one group
(`matching.py` lines 167–168), on ℚ. -/
def group_avg (lone : Student) (group : List Student) : ℚ :=
  ((group.foldl (fun t member => t + compatibility lone member) 0 : Int) : ℚ)
    / (group.length : ℚ)

/-- The `for idx, group in enumerate(groups)` selection loop of the
leftover merge (`matching.py` lines 162–171): running index, best index
(initially 0) and best average (initially -1); empty groups are skipped,
a strictly better average updates the best. -/
def pick_group_aux (lone : Student) :
    List (List Student) → Nat → Nat → ℚ → Nat
  | [], _, best_idx, _ => best_idx
  | g :: rest, idx, best_idx, best_val =>
      if g = [] then pick_group_aux lone rest (idx + 1) best_idx best_val
      else if group_avg lone g > best_val then
        pick_group_aux lone rest (idx + 1) idx (group_avg lone g)
      else pick_group_aux lone rest (idx + 1) best_idx best_val

def pick_group (lone : Student) (groups : List (List Student)) : Nat :=
  pick_group_aux lone groups 0 0 (-1)

/-- Leftover reconciliation (`matching.py` lines 157–172): when at least
two groups exist and the last has exactly one member, pop the singleton
and append its student to the remaining group with the best average
compatibility. -/
def merge_leftover (groups : List (List Student)) : List (List Student) :=
  if 2 ≤ groups.length ∧ (groups.getLastD []).length = 1 then
    groups.dropLast.set
      (pick_group ((groups.getLastD []).headD default) groups.dropLast)
      ((groups.dropLast.getD
          (pick_group ((groups.getLastD []).headD default) groups.dropLast) []) ++
        [(groups.getLastD []).headD default])
  else groups

/-- `form_groups_for_course(students)` (`matching.py` lines 89–174). -/
def form_groups_for_course (students : List Student) : List (List Student) :=
  if students = [] then []
  else if students.length = 1 then [students]
  else merge_leftover (pre_merge_groups students)

theorem best_by_spec {α : Type} [LinearOrder α] (f : Nat → α) (xs : List Nat)
    (b : Option Nat) (bv : α) :
    (best_by f xs b bv = b ∧ ∀ x ∈ xs, f x ≤ bv) ∨
    (∃ l1 c l2, xs = l1 ++ c :: l2 ∧ best_by f xs b bv = some c ∧
      bv < f c ∧ (∀ y ∈ l1, f y < f c) ∧ (∀ y ∈ l2, f y ≤ f c)) := by
  induction xs generalizing b bv with
  | nil => exact Or.inl ⟨rfl, by simp⟩
  | cons x rest ih =>
      by_cases hx : f x > bv
      · rcases ih (some x) (f x) with ⟨heq, hall⟩ |
          ⟨l1, c, l2, hsplit, heq, hbv, hl1, hl2⟩
        · refine Or.inr ⟨[], x, rest, rfl, ?_, hx, by simp, hall⟩
          simp only [best_by, if_pos hx]
          exact heq
        · refine Or.inr ⟨x :: l1, c, l2, by rw [hsplit, List.cons_append], ?_,
            lt_trans hx hbv, ?_, hl2⟩
          · simp only [best_by, if_pos hx]
            exact heq
          · intro y hy
            rcases List.mem_cons.mp hy with rfl | hy2
            · exact hbv
            · exact hl1 y hy2
      · have hle : f x ≤ bv := not_lt.mp hx
        rcases ih b bv with ⟨heq, hall⟩ | ⟨l1, c, l2, hsplit, heq, hbv, hl1, hl2⟩
        · refine Or.inl ⟨?_, ?_⟩
          · simp only [best_by, if_neg hx]
            exact heq
          · intro y hy
            rcases List.mem_cons.mp hy with rfl | hy2
            · exact hle
            · exact hall y hy2
        · refine Or.inr ⟨x :: l1, c, l2, by rw [hsplit, List.cons_append], ?_,
            hbv, ?_, hl2⟩
          · simp only [best_by, if_neg hx]
            exact heq
          · intro y hy
            rcases List.mem_cons.mp hy with rfl | hy2
            · exact lt_of_le_of_lt hle hbv
            · exact hl1 y hy2

/-- All values stored in a score dict are non-negative (so every
`scores.get(k, 0)` is non-negative). -/
def NonnegVals (m : Nat × Nat → Option Int) : Prop :=
  ∀ k : Nat × Nat, 0 ≤ dictGetD m k

theorem nonnegVals_dictInsert (m : Nat × Nat → Option Int) (k : Nat × Nat)
    (v : Int) (hv : 0 ≤ v) (h : NonnegVals m) : NonnegVals (dictInsert m k v) := by
  intro q
  simp only [dictGetD, dictInsert]
  split
  · simpa using hv
  · exact h q

theorem nonnegVals_insert_pairs (s1 : Student) (rest : List Student)
    (m : Nat × Nat → Option Int) (h : NonnegVals m) :
    NonnegVals (insert_pairs s1 rest m) := by
  induction rest generalizing m with
  | nil => exact h
  | cons s2 tl ih =>
      exact ih _ (nonnegVals_dictInsert _ _ _ (compatibility_nonneg _ _)
        (nonnegVals_dictInsert _ _ _ (compatibility_nonneg _ _) h))

theorem nonnegVals_build_from (students : List Student)
    (m : Nat × Nat → Option Int) (h : NonnegVals m) :
    NonnegVals (build_matrix_from students m) := by
  induction students generalizing m with
  | nil => exact h
  | cons s1 rest ih => exact ih _ (nonnegVals_insert_pairs _ _ _ h)

theorem build_compatibility_matrix_nonneg (students : List Student) :
    NonnegVals (build_compatibility_matrix students) :=
  nonnegVals_build_from students _ (fun _ => le_refl 0)

theorem foldl_le_of_step {β : Type} (step : Int → β → Int)
    (hstep : ∀ t x, t ≤ step t x) :
    ∀ (l : List β) (t : Int), t ≤ l.foldl step t
  | [], t => le_refl t
  | x :: rest, t =>
      le_trans (hstep t x) (foldl_le_of_step step hstep rest (step t x))

theorem seed_total_nonneg (scores : Nat × Nat → Option Int)
    (hnn : NonnegVals scores) (sid : Nat) (una : List Nat) :
    0 ≤ seed_total scores sid una := by
  refine foldl_le_of_step _ ?_ una 0
  intro t other
  dsimp only
  split
  · exact le_refl t
  · have := hnn (sid, other)
    omega

theorem avg_compat_nonneg (scores : Nat × Nat → Option Int)
    (hnn : NonnegVals scores) (cid : Nat) (curr : List Nat) :
    0 ≤ avg_compat scores cid curr := by
  unfold avg_compat
  split
  · exact le_refl 0
  · apply div_nonneg
    · have h0 : (0 : Int) ≤ curr.foldl
          (fun t c => t + dictGetD scores (cid, c)) 0 := by
        refine foldl_le_of_step _ ?_ curr 0
        intro t c
        have := hnn (cid, c)
        omega
      exact_mod_cast h0
    · exact Nat.cast_nonneg _

theorem pick_seed_some (scores : Nat × Nat → Option Int)
    (hnn : NonnegVals scores) (una : List Nat) (h : una ≠ []) :
    ∃ c, pick_seed scores una = some c ∧ c ∈ una := by
  rcases best_by_spec (fun sid => seed_total scores sid una) una none (-1) with
    ⟨_, hall⟩ | ⟨l1, c, l2, hsplit, heq, _, _, _⟩
  · obtain ⟨x, hx⟩ := List.exists_mem_of_ne_nil una h
    have h1 := hall x hx
    have h2 := seed_total_nonneg scores hnn x una
    simp only at h1
    omega
  · exact ⟨c, heq, by rw [hsplit]; exact List.mem_append_right _ (List.mem_cons_self _ _)⟩

theorem pick_candidate_some (scores : Nat × Nat → Option Int)
    (hnn : NonnegVals scores) (una curr : List Nat) (h : una ≠ []) :
    ∃ c, pick_candidate scores una curr = some c ∧ c ∈ una := by
  rcases best_by_spec (fun sid => avg_compat scores sid curr) una none (-1) with
    ⟨_, hall⟩ | ⟨l1, c, l2, hsplit, heq, _, _, _⟩
  · obtain ⟨x, hx⟩ := List.exists_mem_of_ne_nil una h
    have h1 := hall x hx
    have h2 := avg_compat_nonneg scores hnn x curr
    simp only at h1
    linarith
  · exact ⟨c, heq, by rw [hsplit]; exact List.mem_append_right _ (List.mem_cons_self _ _)⟩

theorem pick_fallback_mem (scores : Nat × Nat → Option Int)
    (una curr : List Nat) (h : una ≠ []) :
    (pick_candidate scores una curr).getD (una.headD 0) ∈ una := by
  cases hpc : pick_candidate scores una curr with
  | none =>
      cases una with
      | nil => exact absurd rfl h
      | cons x rest => simp [List.headD]
  | some c =>
      rcases best_by_mem _ _ _ _ _ hpc with h1 | h1
      · exact absurd h1 (by simp)
      · simpa using h1

theorem grow_group_perm (scores : Nat × Nat → Option Int) (target : Nat)
    (current unassigned : List Nat) :
    ((grow_group scores target current unassigned).1 ++
      (grow_group scores target current unassigned).2).Perm (current ++ unassigned) := by
  induction current, unassigned using grow_group.induct scores target with
  | case1 current unassigned h ih =>
      rw [grow_group, dif_pos h]
      refine ih.trans ?_
      have hc := pick_fallback_mem scores unassigned current h.2
      have h1 := List.Perm.append_left current (List.perm_cons_erase hc).symm
      rw [List.append_assoc]
      simpa using h1
  | case2 current unassigned h =>
      rw [grow_group, dif_neg h]

theorem grow_group_length (scores : Nat × Nat → Option Int) (target : Nat)
    (current unassigned : List Nat) (h0 : current.length ≤ target) :
    (grow_group scores target current unassigned).1.length ≤ target ∧
    ((grow_group scores target current unassigned).1.length = target ∨
      (grow_group scores target current unassigned).2 = []) := by
  induction current, unassigned using grow_group.induct scores target with
  | case1 current unassigned h ih =>
      rw [grow_group, dif_pos h]
      refine ih ?_
      simp only [List.length_append, List.length_cons, List.length_nil]
      omega
  | case2 current unassigned h =>
      rw [grow_group, dif_neg h]
      refine ⟨h0, ?_⟩
      by_cases hl : current.length < target
      · have hna : ¬(unassigned ≠ []) := fun hne => h ⟨hl, hne⟩
        exact Or.inr (not_not.mp hna)
      · exact Or.inl (le_antisymm h0 (not_lt.mp hl))

theorem grow_group_length_ge (scores : Nat × Nat → Option Int) (target : Nat)
    (current unassigned : List Nat) :
    current.length ≤ (grow_group scores target current unassigned).1.length := by
  induction current, unassigned using grow_group.induct scores target with
  | case1 current unassigned h ih =>
      rw [grow_group, dif_pos h]
      refine le_trans ?_ ih
      simp
  | case2 current unassigned h =>
      rw [grow_group, dif_neg h]

theorem main_loop_nil (scores : Nat × Nat → Option Int) (target : Nat) :
    main_loop scores target [] = [] := by
  rw [main_loop]
  simp

theorem main_loop_none (scores : Nat × Nat → Option Int) (target : Nat)
    (una : List Nat) (h : una ≠ []) (hp : pick_seed scores una = none) :
    main_loop scores target una = [] := by
  rw [main_loop, dif_neg h]
  split
  · rfl
  · rename_i s hs
    rw [hp] at hs
    exact absurd hs (by simp)

theorem main_loop_cons (scores : Nat × Nat → Option Int) (target : Nat)
    (una : List Nat) (seed : Nat) (h : una ≠ [])
    (hp : pick_seed scores una = some seed) :
    main_loop scores target una =
      (grow_group scores target [seed] (una.erase seed)).1 ::
        main_loop scores target (grow_group scores target [seed] (una.erase seed)).2 := by
  rw [main_loop, dif_neg h]
  split
  · rename_i hs
    rw [hp] at hs
    exact absurd hs (by simp)
  · rename_i s hs
    rw [hp] at hs
    obtain rfl := Option.some.inj hs
    rfl

theorem main_loop_join_perm (scores : Nat × Nat → Option Int) (target : Nat)
    (hnn : NonnegVals scores) (unassigned : List Nat) :
    (main_loop scores target unassigned).flatten.Perm unassigned := by
  induction unassigned using main_loop.induct scores target with
  | case1 =>
      rw [main_loop_nil]
      exact List.Perm.refl _
  | case2 x hne hp =>
      obtain ⟨c, hc, _⟩ := pick_seed_some scores hnn x hne
      rw [hp] at hc
      exact absurd hc (by simp)
  | case3 x hne seed hp ih =>
      rw [main_loop_cons scores target x seed hne hp]
      have hseed : seed ∈ x := by
        rcases best_by_mem _ _ _ _ _ hp with h1 | h1
        · exact absurd h1 (by simp)
        · exact h1
      rw [List.flatten_cons]
      refine (List.Perm.append_left _ ih).trans ?_
      refine (grow_group_perm scores target [seed] (x.erase seed)).trans ?_
      have h1 : ([seed] ++ x.erase seed).Perm x := by
        simpa using (List.perm_cons_erase hseed).symm
      exact h1

theorem mem_dropLast_cons {α : Type} (a : α) (l : List α) (x : α)
    (hx : x ∈ (a :: l).dropLast) : (x = a ∧ l ≠ []) ∨ x ∈ l.dropLast := by
  cases l with
  | nil => simp [List.dropLast] at hx
  | cons b t =>
      have he : (a :: b :: t).dropLast = a :: (b :: t).dropLast := rfl
      rw [he] at hx
      rcases List.mem_cons.mp hx with rfl | h2
      · exact Or.inl ⟨rfl, by simp⟩
      · exact Or.inr h2

theorem main_loop_mem_lengths (scores : Nat × Nat → Option Int) (target : Nat)
    (h1t : 1 ≤ target) (unassigned : List Nat) :
    ∀ g ∈ main_loop scores target unassigned, 1 ≤ g.length ∧ g.length ≤ target := by
  induction unassigned using main_loop.induct scores target with
  | case1 =>
      rw [main_loop_nil]
      simp
  | case2 x hne hp =>
      rw [main_loop_none scores target x hne hp]
      simp
  | case3 x hne seed hp ih =>
      rw [main_loop_cons scores target x seed hne hp]
      intro g hg
      rcases List.mem_cons.mp hg with rfl | h2
      · constructor
        · have := grow_group_length_ge scores target [seed] (x.erase seed)
          simpa using this
        · exact (grow_group_length scores target [seed] (x.erase seed)
            (by simpa using h1t)).1
      · exact ih g h2

theorem main_loop_dropLast_lengths (scores : Nat × Nat → Option Int) (target : Nat)
    (h1t : 1 ≤ target) (unassigned : List Nat) :
    ∀ g ∈ (main_loop scores target unassigned).dropLast, g.length = target := by
  induction unassigned using main_loop.induct scores target with
  | case1 =>
      rw [main_loop_nil]
      simp
  | case2 x hne hp =>
      rw [main_loop_none scores target x hne hp]
      simp
  | case3 x hne seed hp ih =>
      rw [main_loop_cons scores target x seed hne hp]
      intro g hg
      rcases mem_dropLast_cons _ _ _ hg with ⟨rfl, hne2⟩ | h2
      · rcases (grow_group_length scores target [seed] (x.erase seed)
            (by simpa using h1t)).2 with he | he
        · exact he
        · rw [he, main_loop_nil] at hne2
          exact absurd rfl hne2
      · exact ih g h2

theorem foldl_by_id_no_match (l : List Student) (sid : Nat) (acc : Option Student)
    (h : ∀ t ∈ l, t.id ≠ sid) :
    l.foldl (fun acc2 t => if t.id = sid then some t else acc2) acc = acc := by
  induction l generalizing acc with
  | nil => rfl
  | cons a t ih =>
      simp only [List.foldl_cons, if_neg (h a (List.mem_cons_self _ _))]
      exact ih _ (fun u hu => h u (List.mem_cons_of_mem _ hu))

theorem foldl_by_id_unique (students : List Student) (s : Student)
    (hnd : (students.map Student.id).Nodup) (hs : s ∈ students) (acc : Option Student) :
    students.foldl (fun acc2 t => if t.id = s.id then some t else acc2) acc = some s := by
  induction students generalizing acc with
  | nil => cases hs
  | cons a l ih =>
      rw [List.map_cons, List.nodup_cons] at hnd
      rcases List.mem_cons.mp hs with rfl | hmem
      · simp only [List.foldl_cons, if_pos rfl]
        refine foldl_by_id_no_match l s.id (some s) ?_
        intro t ht hteq
        exact hnd.1 (hteq ▸ List.mem_map_of_mem Student.id ht)
      · by_cases ha : a.id = s.id
        · exact absurd (ha ▸ List.mem_map_of_mem Student.id hmem) hnd.1
        · simp only [List.foldl_cons, if_neg ha]
          exact ih hnd.2 hmem _

theorem by_id_eq_of_nodup (students : List Student) (s : Student)
    (hnd : (students.map Student.id).Nodup) (hs : s ∈ students) :
    by_id students s.id = s := by
  unfold by_id
  rw [foldl_by_id_unique students s hnd hs none]
  rfl

theorem idSet_perm (students : List Student)
    (hnd : (students.map Student.id).Nodup) :
    (idSet students).Perm (students.map Student.id) := by
  unfold idSet
  rw [List.dedup_eq_self.mpr hnd]
  exact List.perm_insertionSort _ _

theorem dropLast_append_getLastD {α : Type} (d : α) :
    ∀ (l : List α), l ≠ [] → l.dropLast ++ [l.getLastD d] = l
  | [a], _ => rfl
  | a :: b :: t, _ => by
      have ih := dropLast_append_getLastD d (b :: t) (by simp)
      have h1 : (a :: b :: t).dropLast = a :: (b :: t).dropLast := rfl
      have h2 : (a :: b :: t).getLastD d = (b :: t).getLastD d := by
        simp [List.getLastD_eq_getLast?]
      rw [h1, h2, List.cons_append, ih]

theorem mem_dropLast_or_getLastD {α : Type} (d : α) (l : List α) (x : α)
    (hl : l ≠ []) (hx : x ∈ l) : x ∈ l.dropLast ∨ x = l.getLastD d := by
  rw [← dropLast_append_getLastD d l hl] at hx
  rcases List.mem_append.mp hx with h | h
  · exact Or.inl h
  · exact Or.inr (List.mem_singleton.mp h)

theorem flatten_set_append {α : Type} (x : α) :
    ∀ (l : List (List α)) (i : Nat), i < l.length →
      ((l.set i ((l.getD i []) ++ [x])).flatten).Perm (x :: l.flatten)
  | [], i, hi => absurd hi (by simp)
  | a :: t, 0, _ => by
      simp only [List.set_cons_zero, List.getD_cons_zero, List.flatten_cons]
      rw [List.append_assoc]
      simpa using @List.perm_middle _ x a t.flatten
  | a :: t, i + 1, hi => by
      simp only [List.set_cons_succ, List.getD_cons_succ, List.flatten_cons]
      have ih := flatten_set_append x t i (by simpa using hi)
      refine (List.Perm.append_left a ih).trans ?_
      exact List.perm_middle

theorem getD_append_len {α : Type} (d : α) :
    ∀ (l1 : List α) (a : α) (l2 : List α), (l1 ++ a :: l2).getD l1.length d = a
  | [], a, l2 => rfl
  | b :: t, a, l2 => by
      simpa using getD_append_len d t a l2

theorem set_append_len {α : Type} :
    ∀ (l1 : List α) (a b : α) (l2 : List α),
      (l1 ++ a :: l2).set l1.length b = l1 ++ b :: l2
  | [], a, b, l2 => rfl
  | c :: t, a, b, l2 => by
      simpa using set_append_len t a b l2

theorem group_avg_nonneg (lone : Student) (g : List Student) :
    0 ≤ group_avg lone g := by
  unfold group_avg
  apply div_nonneg
  · have h0 : (0 : Int) ≤ g.foldl (fun t member => t + compatibility lone member) 0 := by
      refine foldl_le_of_step _ ?_ g 0
      intro t m
      have := compatibility_nonneg lone m
      omega
    exact_mod_cast h0
  · exact Nat.cast_nonneg _

theorem pick_group_aux_spec (lone : Student) (gs : List (List Student)) :
    ∀ (idx bi : Nat) (bv : ℚ),
    (pick_group_aux lone gs idx bi bv = bi ∧
      ∀ g ∈ gs, g ≠ [] → group_avg lone g ≤ bv) ∨
    (∃ l1 grp l2, gs = l1 ++ grp :: l2 ∧ grp ≠ [] ∧
      pick_group_aux lone gs idx bi bv = idx + l1.length ∧
      bv < group_avg lone grp ∧
      (∀ g ∈ l1, g ≠ [] → group_avg lone g < group_avg lone grp) ∧
      (∀ g ∈ l2, g ≠ [] → group_avg lone g ≤ group_avg lone grp)) := by
  induction gs with
  | nil =>
      intro idx bi bv
      exact Or.inl ⟨rfl, by simp⟩
  | cons g rest ih =>
      intro idx bi bv
      by_cases hg : g = []
      · simp only [pick_group_aux, if_pos hg]
        rcases ih (idx + 1) bi bv with ⟨heq, hall⟩ |
          ⟨l1, grp, l2, hsplit, hgne, heq, hbv, hl1, hl2⟩
        · refine Or.inl ⟨heq, ?_⟩
          intro g2 hg2 hg2ne
          rcases List.mem_cons.mp hg2 with rfl | h2
          · exact absurd hg hg2ne
          · exact hall g2 h2 hg2ne
        · refine Or.inr ⟨g :: l1, grp, l2, by rw [hsplit, List.cons_append], hgne,
            ?_, hbv, ?_, hl2⟩
          · rw [heq, List.length_cons]
            omega
          · intro g2 hg2 hg2ne
            rcases List.mem_cons.mp hg2 with rfl | h2
            · exact absurd hg hg2ne
            · exact hl1 g2 h2 hg2ne
      · simp only [pick_group_aux, if_neg hg]
        by_cases hcmp : group_avg lone g > bv
        · rw [if_pos hcmp]
          rcases ih (idx + 1) idx (group_avg lone g) with ⟨heq, hall⟩ |
            ⟨l1, grp, l2, hsplit, hgne, heq, hbv, hl1, hl2⟩
          · refine Or.inr ⟨[], g, rest, rfl, hg, ?_, hcmp, by simp, ?_⟩
            · rw [heq]
              simp
            · intro g2 hg2 hg2ne
              exact hall g2 hg2 hg2ne
          · refine Or.inr ⟨g :: l1, grp, l2, by rw [hsplit, List.cons_append], hgne,
              ?_, lt_trans hcmp hbv, ?_, hl2⟩
            · rw [heq, List.length_cons]
              omega
            · intro g2 hg2 hg2ne
              rcases List.mem_cons.mp hg2 with rfl | h2
              · exact hbv
              · exact hl1 g2 h2 hg2ne
        · rw [if_neg hcmp]
          have hle : group_avg lone g ≤ bv := not_lt.mp hcmp
          rcases ih (idx + 1) bi bv with ⟨heq, hall⟩ |
            ⟨l1, grp, l2, hsplit, hgne, heq, hbv, hl1, hl2⟩
          · refine Or.inl ⟨heq, ?_⟩
            intro g2 hg2 hg2ne
            rcases List.mem_cons.mp hg2 with rfl | h2
            · exact hle
            · exact hall g2 h2 hg2ne
          · refine Or.inr ⟨g :: l1, grp, l2, by rw [hsplit, List.cons_append], hgne,
              ?_, hbv, ?_, hl2⟩
            · rw [heq, List.length_cons]
              omega
            · intro g2 hg2 hg2ne
              rcases List.mem_cons.mp hg2 with rfl | h2
              · exact lt_of_le_of_lt hle hbv
              · exact hl1 g2 h2 hg2ne

theorem pick_group_aux_range (lone : Student) (gs : List (List Student)) :
    ∀ (idx bi : Nat) (bv : ℚ),
      pick_group_aux lone gs idx bi bv = bi ∨
      ∃ j, j < gs.length ∧ pick_group_aux lone gs idx bi bv = idx + j := by
  induction gs with
  | nil =>
      intro idx bi bv
      exact Or.inl rfl
  | cons g rest ih =>
      intro idx bi bv
      by_cases hg : g = []
      · simp only [pick_group_aux, if_pos hg]
        rcases ih (idx + 1) bi bv with h | ⟨j, hj, he⟩
        · exact Or.inl h
        · exact Or.inr ⟨j + 1, by simp only [List.length_cons]; omega,
            by rw [he]; omega⟩
      · simp only [pick_group_aux, if_neg hg]
        by_cases hcmp : group_avg lone g > bv
        · rw [if_pos hcmp]
          rcases ih (idx + 1) idx (group_avg lone g) with h | ⟨j, hj, he⟩
          · exact Or.inr ⟨0, by simp, by rw [h]; omega⟩
          · exact Or.inr ⟨j + 1, by simp only [List.length_cons]; omega,
              by rw [he]; omega⟩
        · rw [if_neg hcmp]
          rcases ih (idx + 1) bi bv with h | ⟨j, hj, he⟩
          · exact Or.inl h
          · exact Or.inr ⟨j + 1, by simp only [List.length_cons]; omega,
              by rw [he]; omega⟩

theorem pick_group_lt (lone : Student) (gs : List (List Student)) (h : gs ≠ []) :
    pick_group lone gs < gs.length := by
  have hlen := List.length_pos.mpr h
  rcases pick_group_aux_range lone gs 0 0 (-1) with he | ⟨j, hj, he⟩
  · unfold pick_group
    rw [he]
    exact hlen
  · unfold pick_group
    rw [he]
    omega

theorem merge_leftover_flatten_perm (gs : List (List Student)) :
    (merge_leftover gs).flatten.Perm gs.flatten := by
  unfold merge_leftover
  split
  · rename_i h
    have hne : gs ≠ [] := by
      intro he
      rw [he] at h
      simp at h
    have hrlen : 0 < gs.dropLast.length := by
      rw [List.length_dropLast]
      omega
    have hrne : gs.dropLast ≠ [] := List.length_pos.mp hrlen
    have hidx := pick_group_lt ((gs.getLastD []).headD default) gs.dropLast hrne
    refine (flatten_set_append _ gs.dropLast _ hidx).trans ?_
    have h2 := h.2
    obtain ⟨lone, hlast⟩ : ∃ a, gs.getLastD [] = [a] := by
      cases hl : gs.getLastD [] with
      | nil =>
          rw [hl] at h2
          simp at h2
      | cons a t =>
          cases t with
          | nil => exact ⟨a, rfl⟩
          | cons b u =>
              rw [hl] at h2
              simp at h2
    rw [hlast]
    simp only [List.headD_cons]
    have hgs : gs.dropLast ++ [gs.getLastD []] = gs := dropLast_append_getLastD [] gs hne
    conv_rhs => rw [← hgs]
    rw [List.flatten_append, hlast]
    simp only [List.flatten_cons, List.flatten_nil, List.append_nil]
    exact (List.perm_append_singleton _ _).symm
  · exact List.Perm.refl _

theorem merge_leftover_spec (gs : List (List Student))
    (hne : ∀ g ∈ gs, g ≠ [])
    (hcond : 2 ≤ gs.length ∧ (gs.getLastD []).length = 1) :
    ∃ lone l1 grp l2,
      gs.getLastD [] = [lone] ∧
      gs.dropLast = l1 ++ grp :: l2 ∧
      merge_leftover gs = l1 ++ (grp ++ [lone]) :: l2 ∧
      (∀ g ∈ l1, group_avg lone g < group_avg lone grp) ∧
      (∀ g ∈ l2, group_avg lone g ≤ group_avg lone grp) := by
  have h2 := hcond.2
  obtain ⟨lone, hlast⟩ : ∃ a, gs.getLastD [] = [a] := by
    cases hl : gs.getLastD [] with
    | nil =>
        rw [hl] at h2
        simp at h2
    | cons a t =>
        cases t with
        | nil => exact ⟨a, rfl⟩
        | cons b u =>
            rw [hl] at h2
            simp at h2
  have hrest : ∀ g ∈ gs.dropLast, g ≠ [] :=
    fun g hg => hne g ((List.dropLast_sublist gs).subset hg)
  have hrlen : 0 < gs.dropLast.length := by
    rw [List.length_dropLast]
    omega
  have hrne : gs.dropLast ≠ [] := List.length_pos.mp hrlen
  rcases pick_group_aux_spec lone gs.dropLast 0 0 (-1) with ⟨heq, hall⟩ |
    ⟨l1, grp, l2, hsplit, hgne, heq, hbv, hl1, hl2⟩
  · exfalso
    obtain ⟨g0, hg0⟩ := List.exists_mem_of_ne_nil _ hrne
    have ha := hall g0 hg0 (hrest g0 hg0)
    have hb := group_avg_nonneg lone g0
    linarith
  · refine ⟨lone, l1, grp, l2, hlast, hsplit, ?_,
      fun g hg => hl1 g hg (hrest g (by rw [hsplit]; exact List.mem_append_left _ hg)),
      fun g hg => hl2 g hg (hrest g
        (by rw [hsplit]; exact List.mem_append_right _ (List.mem_cons_of_mem _ hg)))⟩
    unfold merge_leftover
    rw [if_pos hcond, hlast]
    simp only [List.headD_cons]
    have hpg : pick_group lone gs.dropLast = l1.length := by
      unfold pick_group
      rw [heq]
      omega
    rw [hpg, hsplit, getD_append_len, set_append_len]

theorem clamp25_bounds (x : Int) : 2 ≤ clamp25 x ∧ clamp25 x ≤ 5 := by
  unfold clamp25
  constructor
  · exact le_max_left 2 (min 5 x)
  · exact max_le (by norm_num) (min_le_left 5 x)

theorem target_size_bounds (students : List Student) :
    2 ≤ target_size students ∧ target_size students ≤ 5 := by
  unfold target_size
  exact clamp25_bounds _

theorem pre_merge_mem_lengths (students : List Student) :
    ∀ g ∈ pre_merge_groups students,
      1 ≤ g.length ∧ g.length ≤ (target_size students).toNat := by
  intro g hg
  unfold pre_merge_groups at hg
  obtain ⟨gid, hgid, rfl⟩ := List.mem_map.mp hg
  rw [List.length_map]
  refine main_loop_mem_lengths _ _ ?_ _ gid hgid
  have := (target_size_bounds students).1
  omega

theorem pre_merge_dropLast_lengths (students : List Student) :
    ∀ g ∈ (pre_merge_groups students).dropLast,
      g.length = (target_size students).toNat := by
  intro g hg
  unfold pre_merge_groups at hg
  rw [← List.map_dropLast] at hg
  obtain ⟨gid, hgid, rfl⟩ := List.mem_map.mp hg
  rw [List.length_map]
  refine main_loop_dropLast_lengths _ _ ?_ _ gid hgid
  have := (target_size_bounds students).1
  omega

theorem pre_merge_flatten_perm (students : List Student)
    (hnd : (students.map Student.id).Nodup) :
    (pre_merge_groups students).flatten.Perm students := by
  unfold pre_merge_groups
  rw [← List.map_flatten]
  have h1 := main_loop_join_perm (build_compatibility_matrix students)
    (target_size students).toNat (build_compatibility_matrix_nonneg students)
    (idSet students)
  refine ((h1.map (by_id students)).trans ?_)
  refine ((idSet_perm students hnd).map (by_id students)).trans ?_
  rw [List.map_map]
  have h2 : ∀ s ∈ students, (by_id students ∘ Student.id) s = id s :=
    fun s hs => by_id_eq_of_nodup students s hnd hs
  rw [List.map_congr_left h2, List.map_id]

/-- C1: `form_groups_for_course` partitions the roster: the concatenation
of all returned groups is a permutation of the roster — every roster
student is in exactly one group and no one else appears (an empty roster
gives an empty result). -/
theorem claim_C1_completeness (students : List Student)
    (hnd : (students.map Student.id).Nodup) :
    (form_groups_for_course students).flatten.Perm students := by
  unfold form_groups_for_course
  by_cases h0 : students = []
  · rw [if_pos h0, h0]
    exact List.Perm.refl _
  · rw [if_neg h0]
    by_cases h1 : students.length = 1
    · rw [if_pos h1]
      simp
    · rw [if_neg h1]
      exact (merge_leftover_flatten_perm _).trans (pre_merge_flatten_perm students hnd)

theorem claim_C1_completeness_witness :
    (([⟨1, "ann", "ann@example.com", 3, [], {7}⟩,
       ⟨2, "ben", "ben@example.com", 4, [], {7, 8}⟩,
       ⟨3, "cal", "cal@example.com", 3, [], {8}⟩] : List Student).map Student.id).Nodup ∧
    (form_groups_for_course
      [⟨1, "ann", "ann@example.com", 3, [], {7}⟩,
       ⟨2, "ben", "ben@example.com", 4, [], {7, 8}⟩,
       ⟨3, "cal", "cal@example.com", 3, [], {8}⟩]).flatten.Perm
      [⟨1, "ann", "ann@example.com", 3, [], {7}⟩,
       ⟨2, "ben", "ben@example.com", 4, [], {7, 8}⟩,
       ⟨3, "cal", "cal@example.com", 3, [], {8}⟩] :=
  ⟨by decide, claim_C1_completeness _ (by decide)⟩

/-- C2: `compatibility(a, b)` equals `max 0 (5 + overlap - penalty)` where
`overlap` is the size of the availability intersection and the penalty is
`sizeDiff - 1` when `sizeDiff ≥ 2` and `0` otherwise; the result is never
negative (and the Lean function is pure by construction, as is the Python
function, which reads its arguments and touches no other state). -/
theorem claim_C2_compatibility (a b : Student) :
    compatibility a b =
      max 0 (5 + ((a.availability_timeslot_ids ∩ b.availability_timeslot_ids).card : Int)
        - (if 2 ≤ |a.preferred_group_size - b.preferred_group_size|
           then |a.preferred_group_size - b.preferred_group_size| - 1 else 0)) ∧
    0 ≤ compatibility a b :=
  ⟨rfl, compatibility_nonneg a b⟩

/-- C8: the compatibility score is symmetric, and the compatibility matrix
stores the same score under the keys `(x, y)` and `(y, x)` for every pair
of ids (in particular for every pair of distinct roster members). -/
theorem claim_C8_symmetry :
    (∀ a b : Student, compatibility a b = compatibility b a) ∧
    (∀ (students : List Student) (x y : Nat),
      build_compatibility_matrix students (x, y) =
        build_compatibility_matrix students (y, x)) :=
  ⟨compatibility_comm, fun students x y => build_compatibility_matrix_symm students x y⟩

theorem pymedian_nonempty (xs : List ℚ) (h : xs ≠ []) :
    ∃ m, pymedian xs = some m := by
  have hlen : xs.length ≠ 0 := fun he => h (List.length_eq_zero.mp he)
  unfold pymedian
  rw [if_neg hlen]
  by_cases hpar : xs.length % 2 = 1
  · rw [if_pos hpar]
    exact ⟨_, rfl⟩
  · rw [if_neg hpar]
    exact ⟨_, rfl⟩

/-- C3: for a non-empty roster the target size is the clamped floor of the
statistical median of the clamped preferences, lies in [2,5], and the
fallback value 3 is not used (the median computation succeeds). -/
theorem claim_C3_target_size (students : List Student) (h : students ≠ []) :
    ∃ m : ℚ,
      pymedian ((students.map (fun s => clamp25 s.preferred_group_size)).map
        (fun p : Int => (p : ℚ))) = some m ∧
      target_size students = clamp25 ⌊m⌋ ∧
      2 ≤ target_size students ∧ target_size students ≤ 5 := by
  obtain ⟨m, hm⟩ := pymedian_nonempty
    ((students.map (fun s => clamp25 s.preferred_group_size)).map (fun p : Int => (p : ℚ)))
    (by intro he; exact h (by simpa using he))
  refine ⟨m, hm, ?_, (target_size_bounds students).1, (target_size_bounds students).2⟩
  unfold target_size
  rw [hm]

theorem claim_C3_target_size_witness :
    (([⟨1, "dia", "dia@example.com", 2, [], ∅⟩,
       ⟨2, "eli", "eli@example.com", 5, [], ∅⟩] : List Student) ≠ []) ∧
    ∃ m : ℚ,
      pymedian ((([⟨1, "dia", "dia@example.com", 2, [], ∅⟩,
        ⟨2, "eli", "eli@example.com", 5, [], ∅⟩] : List Student).map
          (fun s => clamp25 s.preferred_group_size)).map (fun p : Int => (p : ℚ))) = some m ∧
      target_size [⟨1, "dia", "dia@example.com", 2, [], ∅⟩,
        ⟨2, "eli", "eli@example.com", 5, [], ∅⟩] = clamp25 ⌊m⌋ ∧
      2 ≤ target_size [⟨1, "dia", "dia@example.com", 2, [], ∅⟩,
        ⟨2, "eli", "eli@example.com", 5, [], ∅⟩] ∧
      target_size [⟨1, "dia", "dia@example.com", 2, [], ∅⟩,
        ⟨2, "eli", "eli@example.com", 5, [], ∅⟩] ≤ 5 :=
  ⟨by decide, claim_C3_target_size _ (by decide)⟩

theorem pre_merge_groups_ne_nil_mem (students : List Student) :
    ∀ g ∈ pre_merge_groups students, g ≠ [] := by
  intro g hg he
  have h1 := (pre_merge_mem_lengths students g hg).1
  rw [he] at h1
  simp at h1

theorem getLastD_mem {α : Type} (d : α) :
    ∀ (l : List α), l ≠ [] → l.getLastD d ∈ l
  | [a], _ => by simp
  | a :: b :: t, _ => by
      have ih := getLastD_mem d (b :: t) (by simp)
      have h2 : (a :: b :: t).getLastD d = (b :: t).getLastD d := by
        simp [List.getLastD_eq_getLast?]
      rw [h2]
      exact List.mem_cons_of_mem a ih

/-- Roster used to exercise the seed-selection tie-break: two students with
identical preferences and availability, listed with the larger id first. -/
def exA : Student := ⟨2, "fay", "fay@example.com", 3, [], ∅⟩

/-- Second student of the tie-break roster, with the smaller id. -/
def exB : Student := ⟨1, "gus", "gus@example.com", 3, [], ∅⟩

/-- C4 counterexample: on the roster `[exA, exB]` (ids in roster order
[2, 1]) the two unassigned students attain the same (maximal) total
compatibility, so the claimed tie-break applies; the first of them in the
roster's iteration order has id 2, but the seed the code selects while
iterating over the unassigned id set is id 1. -/
theorem claim_C4_counterexample :
    ([exA, exB].map Student.id = [2, 1]) ∧
    seed_total (build_compatibility_matrix [exA, exB]) 1 (idSet [exA, exB]) =
      seed_total (build_compatibility_matrix [exA, exB]) 2 (idSet [exA, exB]) ∧
    pick_seed (build_compatibility_matrix [exA, exB]) (idSet [exA, exB]) = some 1 := by
  decide

/-- C4 amended: in every iteration of the main loop the chosen seed is an
unassigned student whose total compatibility against the other unassigned
students is maximal, but a tie is broken by the first id in the iteration
order of the unassigned id set (ascending id in the model, matching
CPython's iteration over a set of small ints), not by the roster's
iteration order. -/
theorem claim_C4_amended (students : List Student) (una : List Nat) (h : una ≠ []) :
    ∃ l1 s l2, una = l1 ++ s :: l2 ∧
      pick_seed (build_compatibility_matrix students) una = some s ∧
      (∀ y ∈ l1, seed_total (build_compatibility_matrix students) y una <
        seed_total (build_compatibility_matrix students) s una) ∧
      (∀ y ∈ l2, seed_total (build_compatibility_matrix students) y una ≤
        seed_total (build_compatibility_matrix students) s una) := by
  rcases best_by_spec
      (fun sid => seed_total (build_compatibility_matrix students) sid una)
      una none (-1) with ⟨heq, hall⟩ | ⟨l1, c, l2, hsplit, heq, hbv, hl1, hl2⟩
  · exfalso
    obtain ⟨x, hx⟩ := List.exists_mem_of_ne_nil una h
    have h1 := hall x hx
    have h2 := seed_total_nonneg _ (build_compatibility_matrix_nonneg students) x una
    simp only at h1
    omega
  · exact ⟨l1, c, l2, hsplit, heq, hl1, hl2⟩

theorem claim_C4_amended_witness :
    ∃ l1 s l2, ([1, 2] : List Nat) = l1 ++ s :: l2 ∧
      pick_seed (build_compatibility_matrix [exA, exB]) [1, 2] = some s ∧
      (∀ y ∈ l1, seed_total (build_compatibility_matrix [exA, exB]) y [1, 2] <
        seed_total (build_compatibility_matrix [exA, exB]) s [1, 2]) ∧
      (∀ y ∈ l2, seed_total (build_compatibility_matrix [exA, exB]) y [1, 2] ≤
        seed_total (build_compatibility_matrix [exA, exB]) s [1, 2]) :=
  claim_C4_amended [exA, exB] [1, 2] (by decide)

/-- C5: whenever the greedy-growth loop runs with a non-empty unassigned
set, a candidate is always chosen (all scores are non-negative, so the
first candidate beats the initial best of -1 even when every average is
0); the chosen candidate has the maximal average compatibility against the
current group, a tie broken by the first candidate in the enumeration
order; and before leftover reconciliation every group except possibly the
last has exactly the target size. -/
theorem claim_C5_greedy_growth (students : List Student) :
    (∀ (una curr : List Nat), una ≠ [] →
      ∃ l1 c l2, una = l1 ++ c :: l2 ∧
        pick_candidate (build_compatibility_matrix students) una curr = some c ∧
        (∀ y ∈ l1, avg_compat (build_compatibility_matrix students) y curr <
          avg_compat (build_compatibility_matrix students) c curr) ∧
        (∀ y ∈ l2, avg_compat (build_compatibility_matrix students) y curr ≤
          avg_compat (build_compatibility_matrix students) c curr)) ∧
    (∀ g ∈ (pre_merge_groups students).dropLast,
      g.length = (target_size students).toNat) := by
  constructor
  · intro una curr hne
    rcases best_by_spec
        (fun sid => avg_compat (build_compatibility_matrix students) sid curr)
        una none (-1) with ⟨heq, hall⟩ | ⟨l1, c, l2, hsplit, heq, hbv, hl1, hl2⟩
    · exfalso
      obtain ⟨x, hx⟩ := List.exists_mem_of_ne_nil una hne
      have h1 := hall x hx
      have h2 := avg_compat_nonneg _ (build_compatibility_matrix_nonneg students) x curr
      simp only at h1
      linarith
    · exact ⟨l1, c, l2, hsplit, heq, hl1, hl2⟩
  · exact pre_merge_dropLast_lengths students

theorem claim_C5_greedy_growth_witness :
    ∃ l1 c l2, ([1, 2] : List Nat) = l1 ++ c :: l2 ∧
      pick_candidate (build_compatibility_matrix [exA, exB]) [1, 2] [] = some c ∧
      (∀ y ∈ l1, avg_compat (build_compatibility_matrix [exA, exB]) y [] <
        avg_compat (build_compatibility_matrix [exA, exB]) c []) ∧
      (∀ y ∈ l2, avg_compat (build_compatibility_matrix [exA, exB]) y [] ≤
        avg_compat (build_compatibility_matrix [exA, exB]) c []) :=
  (claim_C5_greedy_growth [exA, exB]).1 [1, 2] [] (by decide)

/-- C6: when the last-formed group is a singleton and at least one other
group exists, that singleton is removed and its student is appended to the
remaining group with the maximal average compatibility, earliest group
winning ties, all other groups left untouched; otherwise (including a
singleton that is the only group, or an early singleton with a non-
singleton last group) the group list is returned unchanged. -/
theorem claim_C6_leftover_merge (gs : List (List Student))
    (hne : ∀ g ∈ gs, g ≠ []) :
    (¬(2 ≤ gs.length ∧ (gs.getLastD []).length = 1) → merge_leftover gs = gs) ∧
    ((2 ≤ gs.length ∧ (gs.getLastD []).length = 1) →
      ∃ lone l1 grp l2,
        gs.getLastD [] = [lone] ∧
        gs.dropLast = l1 ++ grp :: l2 ∧
        merge_leftover gs = l1 ++ (grp ++ [lone]) :: l2 ∧
        (∀ g ∈ l1, group_avg lone g < group_avg lone grp) ∧
        (∀ g ∈ l2, group_avg lone g ≤ group_avg lone grp)) := by
  constructor
  · intro hcond
    unfold merge_leftover
    rw [if_neg hcond]
  · intro hcond
    exact merge_leftover_spec gs hne hcond

theorem claim_C6_leftover_merge_witness :
    merge_leftover [[exA, exB]] = [[exA, exB]] ∧
    ∃ lone l1 grp l2,
      ([[exA, exB], [exB]] : List (List Student)).getLastD [] = [lone] ∧
      ([[exA, exB], [exB]] : List (List Student)).dropLast = l1 ++ grp :: l2 ∧
      merge_leftover [[exA, exB], [exB]] = l1 ++ (grp ++ [lone]) :: l2 ∧
      (∀ g ∈ l1, group_avg lone g < group_avg lone grp) ∧
      (∀ g ∈ l2, group_avg lone g ≤ group_avg lone grp) :=
  ⟨(claim_C6_leftover_merge [[exA, exB]] (by decide)).1 (by decide),
   (claim_C6_leftover_merge [[exA, exB], [exB]] (by decide)).2 (by decide)⟩

theorem form_groups_min_size (students : List Student)
    (hnd : (students.map Student.id).Nodup) (h2 : 2 ≤ students.length) :
    ∀ g ∈ form_groups_for_course students, 2 ≤ g.length := by
  intro g hg
  have h0 : students ≠ [] := by
    intro he
    rw [he] at h2
    simp at h2
  have h1 : students.length ≠ 1 := by omega
  rw [form_groups_for_course, if_neg h0, if_neg h1] at hg
  have hT : 2 ≤ (target_size students).toNat := by
    have := (target_size_bounds students).1
    omega
  by_cases hcond : 2 ≤ (pre_merge_groups students).length ∧
      ((pre_merge_groups students).getLastD []).length = 1
  · obtain ⟨lone, l1, grp, l2, hlast, hsplit, hmerge, _, _⟩ :=
      merge_leftover_spec _ (pre_merge_groups_ne_nil_mem students) hcond
    rw [hmerge] at hg
    rcases List.mem_append.mp hg with h | h
    · have hmem : g ∈ (pre_merge_groups students).dropLast := by
        rw [hsplit]
        exact List.mem_append_left _ h
      rw [pre_merge_dropLast_lengths students g hmem]
      exact hT
    · rcases List.mem_cons.mp h with rfl | h
      · have hgrp : grp ∈ (pre_merge_groups students).dropLast := by
          rw [hsplit]
          exact List.mem_append_right _ (List.mem_cons_self _ _)
        rw [List.length_append, pre_merge_dropLast_lengths students grp hgrp]
        simp only [List.length_cons, List.length_nil]
        omega
      · have hmem : g ∈ (pre_merge_groups students).dropLast := by
          rw [hsplit]
          exact List.mem_append_right _ (List.mem_cons_of_mem _ h)
        rw [pre_merge_dropLast_lengths students g hmem]
        exact hT
  · have hid : merge_leftover (pre_merge_groups students) = pre_merge_groups students := by
      unfold merge_leftover
      rw [if_neg hcond]
    rw [hid] at hg
    by_cases hlen2 : 2 ≤ (pre_merge_groups students).length
    · have hlast1 : ((pre_merge_groups students).getLastD []).length ≠ 1 :=
        fun hh => hcond ⟨hlen2, hh⟩
      have hpne : pre_merge_groups students ≠ [] := by
        intro he
        rw [he] at hlen2
        simp at hlen2
      rcases mem_dropLast_or_getLastD [] _ g hpne hg with h | h
      · rw [pre_merge_dropLast_lengths students g h]
        exact hT
      · have hmem := getLastD_mem [] (pre_merge_groups students) hpne
        have hge1 := (pre_merge_mem_lengths students _ hmem).1
        rw [h]
        omega
    · have hperm := pre_merge_flatten_perm students hnd
      have hpne : pre_merge_groups students ≠ [] := by
        intro he
        rw [he] at hperm
        have hl := hperm.length_eq
        simp at hl
        omega
      have hl1 : (pre_merge_groups students).length = 1 := by
        have := List.length_pos.mpr hpne
        omega
      obtain ⟨a, ha⟩ := List.length_eq_one.mp hl1
      rw [ha] at hg
      obtain rfl := List.mem_singleton.mp hg
      rw [ha] at hperm
      have hl := hperm.length_eq
      simp at hl
      omega

/-- C7: the result contains at most one singleton group; a singleton
occurs only when the roster itself has exactly one student; and for a
roster of two or more students every returned group has at least two
members. -/
theorem claim_C7_bounded_singleton (students : List Student)
    (hnd : (students.map Student.id).Nodup) :
    (form_groups_for_course students).countP (fun g => g.length = 1) ≤ 1 ∧
    ((∃ g ∈ form_groups_for_course students, g.length = 1) → students.length = 1) ∧
    (2 ≤ students.length → ∀ g ∈ form_groups_for_course students, 2 ≤ g.length) := by
  refine ⟨?_, ?_, fun h2 => form_groups_min_size students hnd h2⟩
  · by_cases h0 : students = []
    · rw [form_groups_for_course, if_pos h0]
      simp
    · by_cases h1 : students.length = 1
      · rw [form_groups_for_course, if_neg h0, if_pos h1]
        simp [List.countP_cons, h1]
      · have h2 : 2 ≤ students.length := by
          have := List.length_pos.mpr h0
          omega
        have hz : (form_groups_for_course students).countP (fun g => g.length = 1) = 0 :=
          List.countP_eq_zero.mpr (fun g hg => by
            have := form_groups_min_size students hnd h2 g hg
            simp only [decide_eq_true_eq]
            omega)
        omega
  · rintro ⟨g, hg, hlen⟩
    by_cases h0 : students = []
    · rw [form_groups_for_course, if_pos h0] at hg
      simp at hg
    · by_cases h1 : students.length = 1
      · exact h1
      · have h2 : 2 ≤ students.length := by
          have := List.length_pos.mpr h0
          omega
        have := form_groups_min_size students hnd h2 g hg
        omega

theorem claim_C7_bounded_singleton_witness :
    (([exA, exB].map Student.id).Nodup) ∧
    (form_groups_for_course [exA, exB]).countP (fun g => g.length = 1) ≤ 1 ∧
    ((∃ g ∈ form_groups_for_course [exA, exB], g.length = 1) →
      ([exA, exB] : List Student).length = 1) ∧
    (2 ≤ ([exA, exB] : List Student).length →
      ∀ g ∈ form_groups_for_course [exA, exB], 2 ≤ g.length) :=
  ⟨by decide, claim_C7_bounded_singleton [exA, exB] (by decide)⟩

/-- C10: for a roster of two or more students every returned group has at
most `targetSize + 1` members, and that bound never exceeds 6: the greedy
growth stops at the target size and the leftover merge adds at most one
student to exactly one group. -/
theorem claim_C10_size_upper_bound (students : List Student)
    (h2 : 2 ≤ students.length) :
    (∀ g ∈ form_groups_for_course students,
      g.length ≤ (target_size students).toNat + 1) ∧
    (target_size students).toNat + 1 ≤ 6 := by
  refine ⟨?_, by have := (target_size_bounds students).2; omega⟩
  intro g hg
  have h0 : students ≠ [] := by
    intro he
    rw [he] at h2
    simp at h2
  have h1 : students.length ≠ 1 := by omega
  rw [form_groups_for_course, if_neg h0, if_neg h1] at hg
  by_cases hcond : 2 ≤ (pre_merge_groups students).length ∧
      ((pre_merge_groups students).getLastD []).length = 1
  · obtain ⟨lone, l1, grp, l2, hlast, hsplit, hmerge, _, _⟩ :=
      merge_leftover_spec _ (pre_merge_groups_ne_nil_mem students) hcond
    rw [hmerge] at hg
    rcases List.mem_append.mp hg with h | h
    · have hmem : g ∈ pre_merge_groups students :=
        (List.dropLast_sublist _).subset (by rw [hsplit]; exact List.mem_append_left _ h)
      have := (pre_merge_mem_lengths students g hmem).2
      omega
    · rcases List.mem_cons.mp h with rfl | h
      · have hgrp : grp ∈ pre_merge_groups students :=
          (List.dropLast_sublist _).subset
            (by rw [hsplit]; exact List.mem_append_right _ (List.mem_cons_self _ _))
        have := (pre_merge_mem_lengths students grp hgrp).2
        rw [List.length_append]
        simp only [List.length_cons, List.length_nil]
        omega
      · have hmem : g ∈ pre_merge_groups students :=
          (List.dropLast_sublist _).subset
            (by rw [hsplit]; exact List.mem_append_right _ (List.mem_cons_of_mem _ h))
        have := (pre_merge_mem_lengths students g hmem).2
        omega
  · have hid : merge_leftover (pre_merge_groups students) = pre_merge_groups students := by
      unfold merge_leftover
      rw [if_neg hcond]
    rw [hid] at hg
    have := (pre_merge_mem_lengths students g hg).2
    omega

theorem claim_C10_size_upper_bound_witness :
    (2 ≤ ([exA, exB] : List Student).length) ∧
    (∀ g ∈ form_groups_for_course [exA, exB],
      g.length ≤ (target_size [exA, exB]).toNat + 1) ∧
    (target_size [exA, exB]).toNat + 1 ≤ 6 :=
  ⟨by decide, claim_C10_size_upper_bound [exA, exB] (by decide)⟩

/-- A row of the `students` table as read by
`SELECT id, name, email, preferred_group_size FROM students`. -/
structure StudentRow where
  id : Nat
  name : String
  email : String
  preferred_group_size : Int
deriving DecidableEq

/-- The tables read by `load_students_by_course`: student rows,
`(student_id, course_id)` enrollment rows and `(student_id, timeslot_id)`
availability rows, each in `SELECT` order. -/
structure DB where
  students : List StudentRow
  student_courses : List (Nat × Nat)
  student_availability : List (Nat × Nat)
deriving DecidableEq

/-- `students_base[s.id] = s` on a Python dict kept in insertion order: an
existing key keeps its position and gets its value overwritten, a new key
is appended. -/
def upsert_student (base : List Student) (s : Student) : List Student :=
  if base.any (fun t => t.id = s.id) then
    base.map (fun t => if t.id = s.id then s else t)
  else base ++ [s]

/-- `students_base[sid].course_ids.append(cid)` guarded by
`if sid in students_base` (`matching.py` lines 37–41). -/
def add_course_row (base : List Student) (sid cid : Nat) : List Student :=
  base.map (fun t =>
    if t.id = sid then { t with course_ids := t.course_ids ++ [cid] } else t)

/-- `students_base[sid].availability_timeslot_ids.add(tid)` guarded by
`if sid in students_base` (`matching.py` lines 47–51). -/
def add_avail_row (base : List Student) (sid tid : Nat) : List Student :=
  base.map (fun t =>
    if t.id = sid then
      { t with availability_timeslot_ids := insert tid t.availability_timeslot_ids }
    else t)

/-- `by_course[cid].append(student)` on a `defaultdict(list)` kept in
first-insertion key order (`matching.py` lines 54–57). -/
def add_to_course (bc : List (Nat × List Student)) (cid : Nat) (s : Student) :
    List (Nat × List Student) :=
  if bc.any (fun p => p.1 = cid) then
    bc.map (fun p => if p.1 = cid then (p.1, p.2 ++ [s]) else p)
  else bc ++ [(cid, [s])]

/-- `load_students_by_course()` (`matching.py` lines 9–59): return `{}`
when the students table is empty, otherwise build the id-keyed student
dict, attach course memberships and availability, and group the students
by course in the dict's iteration order. -/
def load_students_by_course (db : DB) : List (Nat × List Student) :=
  if db.students = [] then []
  else
    (db.student_availability.foldl (fun b ra => add_avail_row b ra.1 ra.2)
        (db.student_courses.foldl (fun b rc => add_course_row b rc.1 rc.2)
          (db.students.foldl
            (fun b r =>
              upsert_student b ⟨r.id, r.name, r.email, r.preferred_group_size, [], ∅⟩)
            []))).foldl
      (fun bc s => s.course_ids.foldl (fun bc2 cid => add_to_course bc2 cid s) bc) []

/-- One persistence call issued by `run_matching`, in issue order: the two
DELETE statements and the two kinds of INSERT (one `insert_members` per
`executemany` call). -/
inductive DbOp where
  | delete_group_members
  | delete_groups
  | insert_group (course_id : Nat) (group_index : Nat)
  | insert_members (group_id : Nat) (member_ids : List Nat)
deriving DecidableEq

/-- Whether an operation is one of the two INSERT statements. -/
def DbOp.isInsert : DbOp → Bool
  | DbOp.insert_group _ _ => true
  | DbOp.insert_members _ _ => true
  | _ => false

/-- The `for group in groups` loop of `run_matching` (`matching.py` lines
197–208): one `INSERT INTO study_groups` (whose `lastrowid` is modelled
by a fresh-id counter) followed by the membership insert, `group_index`
counting up from its start value. Returns the issued operations and the
next fresh id. -/
def write_groups (course_id : Nat) :
    List (List Nat) → Nat → Nat → List DbOp × Nat
  | [], _, next_gid => ([], next_gid)
  | g :: rest, gidx, next_gid =>
      (DbOp.insert_group course_id gidx ::
        DbOp.insert_members next_gid g ::
          (write_groups course_id rest (gidx + 1) (next_gid + 1)).1,
        (write_groups course_id rest (gidx + 1) (next_gid + 1)).2)

/-- One iteration of the `for course_id, students in by_course.items()`
loop: extend the result mapping, append this course's write operations
(group indices restarting at 1), and advance the fresh-id counter. -/
def run_course_step (acc : List (Nat × List (List Nat)) × List DbOp × Nat)
    (p : Nat × List Student) : List (Nat × List (List Nat)) × List DbOp × Nat :=
  (acc.1 ++ [(p.1, (form_groups_for_course p.2).map (fun g => g.map Student.id))],
    acc.2.1 ++ (write_groups p.1
      ((form_groups_for_course p.2).map (fun g => g.map Student.id)) 1 acc.2.2).1,
    (write_groups p.1
      ((form_groups_for_course p.2).map (fun g => g.map Student.id)) 1 acc.2.2).2)

/-- `run_matching()` (`matching.py` lines 177–210): load the rosters; if
the mapping is empty return `{}` without touching the database, otherwise
issue the two DELETEs and then, per course in mapping order, write every
group and its members while building the result mapping. -/
def run_matching (db : DB) : List (Nat × List (List Nat)) × List DbOp :=
  if load_students_by_course db = [] then ([], [])
  else
    (((load_students_by_course db).foldl run_course_step
        ([], [DbOp.delete_group_members, DbOp.delete_groups], 1)).1,
      ((load_students_by_course db).foldl run_course_step
        ([], [DbOp.delete_group_members, DbOp.delete_groups], 1)).2.1)

theorem write_groups_isInsert (course_id : Nat) :
    ∀ (gs : List (List Nat)) (gidx next_gid : Nat),
      ∀ op ∈ (write_groups course_id gs gidx next_gid).1, op.isInsert = true := by
  intro gs
  induction gs with
  | nil =>
      intro gidx ng op hop
      simp [write_groups] at hop
  | cons g rest ih =>
      intro gidx ng op hop
      simp only [write_groups, List.mem_cons] at hop
      rcases hop with rfl | rfl | hop
      · rfl
      · rfl
      · exact ih _ _ op hop

theorem foldl_run_trace (courses : List (Nat × List Student)) :
    ∀ (acc : List (Nat × List (List Nat)) × List DbOp × Nat),
      ∃ t, (courses.foldl run_course_step acc).2.1 = acc.2.1 ++ t ∧
        ∀ op ∈ t, op.isInsert = true := by
  induction courses with
  | nil =>
      intro acc
      exact ⟨[], by simp, by simp⟩
  | cons p rest ih =>
      intro acc
      obtain ⟨t, ht, hins⟩ := ih (run_course_step acc p)
      refine ⟨(write_groups p.1
          ((form_groups_for_course p.2).map (fun g => g.map Student.id)) 1 acc.2.2).1
            ++ t, ?_, ?_⟩
      · rw [List.foldl_cons, ht]
        simp [run_course_step, List.append_assoc]
      · intro op hop
        rcases List.mem_append.mp hop with h | h
        · exact write_groups_isInsert _ _ _ _ op h
        · exact hins op h

/-- C9: when the roster provider yields no course with enrolled students,
`run_matching` returns an empty mapping and issues no database operation
(previously stored groups stay untouched); when the mapping is non-empty,
the first two operations delete all stored group members and groups
across every course, and every later operation is an insert — the full
clear precedes any write. -/
theorem claim_C9_clear_before_write (db : DB) :
    (load_students_by_course db = [] → run_matching db = ([], [])) ∧
    (load_students_by_course db ≠ [] →
      ∃ rest, (run_matching db).2 =
          DbOp.delete_group_members :: DbOp.delete_groups :: rest ∧
        ∀ op ∈ rest, op.isInsert = true) := by
  constructor
  · intro h
    unfold run_matching
    rw [if_pos h]
  · intro h
    unfold run_matching
    rw [if_neg h]
    obtain ⟨t, ht, hins⟩ := foldl_run_trace (load_students_by_course db)
      ([], [DbOp.delete_group_members, DbOp.delete_groups], 1)
    exact ⟨t, by rw [ht]; rfl, hins⟩

theorem claim_C9_clear_before_write_witness :
    run_matching ⟨[], [], []⟩ = ([], []) ∧
    ∃ rest,
      (run_matching ⟨[⟨1, "hal", "hal@example.com", 3⟩,
          ⟨2, "ida", "ida@example.com", 3⟩], [(1, 10), (2, 10)], []⟩).2 =
        DbOp.delete_group_members :: DbOp.delete_groups :: rest ∧
      ∀ op ∈ rest, op.isInsert = true :=
  ⟨(claim_C9_clear_before_write ⟨[], [], []⟩).1 (by decide),
   (claim_C9_clear_before_write ⟨[⟨1, "hal", "hal@example.com", 3⟩,
      ⟨2, "ida", "ida@example.com", 3⟩], [(1, 10), (2, 10)], []⟩).2 (by decide)⟩
